import Mathlib

/-!
Verification development for the speechbrain DataPipeline: a dependency-driven,
lazily evaluated computation graph transforming a mapping of named inputs into a
mapping of named outputs by composing registered functions.

The pipeline implementation module itself is absent from the available sources
(only its unit test is present), so every operation below is modelled from the
specification (sections 3, 4 and 6) and from the behaviour exercised by the unit
test, as noted in the individual doc comments.  Registered callables are opaque
functions from an argument list to a single value, generic in the value type V.
-/

/-- Modelled from the spec: a FunctionNode of the missing data-pipeline module —
the registered computation unit holding the ordered argument names and the
opaque callable taking the argument values in order. -/
structure FunctionNode (V : Type) where
  argnames : List String
  func : List V → V

/-- Modelled from the spec: the DataPipeline of the missing data-pipeline module —
the node registry (an association list in registration order; a name is bound at
most once, re-registration replaces the prior node) together with the current
ordered output selection. -/
structure DataPipeline (V : Type) where
  funcs : List (String × FunctionNode V)
  output_names : List String

/-- First-match lookup in an association list keyed by names. -/
def lookupName {V : Type} (n : String) : List (String × V) → Option V
  | [] => none
  | (k, v) :: rest => if k = n then some v else lookupName n rest

/-- Replace the binding of a name if present (keeping its position), else append. -/
def replaceOrAppend {V : Type} (fs : List (String × FunctionNode V)) (n : String)
    (node : FunctionNode V) : List (String × FunctionNode V) :=
  match fs with
  | [] => [(n, node)]
  | (k, old) :: rest =>
    if k = n then (n, node) :: rest else (k, old) :: replaceOrAppend rest n node

/-- Modelled from the spec: incremental registration (add_func) of the missing
data-pipeline module — adds or replaces the FunctionNode bound to a name. -/
def DataPipeline.add_func {V : Type} (p : DataPipeline V) (name : String)
    (func : List V → V) (argnames : List String) : DataPipeline V :=
  { p with funcs := replaceOrAppend p.funcs name ⟨argnames, func⟩ }

/-- Modelled from the spec: declarative bulk construction (from_configuration) of
the missing data-pipeline module — bulk registration followed by setting the
output selection. -/
def DataPipeline.from_configuration {V : Type} (funcs : List (String × FunctionNode V))
    (output_names : List String) : DataPipeline V :=
  { funcs := funcs.foldl (fun fs kv => replaceOrAppend fs kv.1 kv.2) [],
    output_names := output_names }

/-- An argument to set_output_names: either a single name (the unit test passes a
bare string, treated as one name) or an ordered sequence of names. -/
inductive NameSpec where
  | single (name : String)
  | many (names : List String)

/-- The list of names an output-selection argument denotes. -/
def NameSpec.toList : NameSpec → List String
  | .single n => [n]
  | .many ns => ns

/-- Modelled from the spec: set_output_names of the missing data-pipeline module —
replaces the active output selection; a single bare string is treated as one
name (per the unit test), not as a sequence of characters. -/
def DataPipeline.set_output_names {V : Type} (p : DataPipeline V)
    (names : NameSpec) : DataPipeline V :=
  { p with output_names := names.toList }

/-- Modelled from the spec: incremental widening (append) of the output selection. -/
def DataPipeline.add_output_name {V : Type} (p : DataPipeline V) (n : String) :
    DataPipeline V :=
  { p with output_names := p.output_names ++ [n] }

/-- The FunctionNode registered under a name, if any. -/
def lookupFunc {V : Type} (p : DataPipeline V) (n : String) : Option (FunctionNode V) :=
  lookupName n p.funcs

/-- The registered (derived) names, in registration order. -/
def derivedNames {V : Type} (p : DataPipeline V) : List String :=
  p.funcs.map Prod.fst

/-- The direct dependencies of a name: the argnames of its registered function,
or none for an input leaf. -/
def depsOf {V : Type} (p : DataPipeline V) (n : String) : List String :=
  match lookupFunc p n with
  | some node => node.argnames
  | none => []

/-- The dependency relation of the graph: f directly depends on a when a is an
argname of the function registered under f. -/
def DependsOn {V : Type} (p : DataPipeline V) (f a : String) : Prop :=
  a ∈ depsOf p f

/-- Union of the direct dependencies of every name in a list. -/
def depsUnion {V : Type} (p : DataPipeline V) : List String → List String
  | [] => []
  | n :: rest => depsOf p n ++ depsUnion p rest

/-- Modelled from the spec: errors of the missing data-pipeline module —
CyclicDependencyError at graph-build time, MissingInputError (naming the missing
keys) at evaluation time. -/
inductive PipelineError where
  | cyclicDependencyError (names : List String)
  | missingInputError (names : List String)
deriving DecidableEq

/-- All names a closure computation can ever touch: the requested outputs, the
registered names and every argname. -/
def pipelineNames {V : Type} (p : DataPipeline V) (outs : List String) : List String :=
  (outs ++ depsUnion p (derivedNames p) ++ derivedNames p).dedup

/-- One saturation pass for the required closure, with explicit fuel: extend the
accumulated name set by the direct dependencies of its members until a fixpoint. -/
def closureFuel {V : Type} (p : DataPipeline V) : Nat → List String → List String
  | 0, acc => acc
  | fuel + 1, acc =>
    let next := (depsUnion p acc ++ acc).dedup
    if next.length = acc.length then acc else closureFuel p fuel next

/-- Modelled from the spec: required_closure of the missing data-pipeline module —
the set of all names (derived and input leaves) that must be known to produce
every requested output, computed by a worklist traversal along dependency edges. -/
def requiredClosure {V : Type} (p : DataPipeline V) (outs : List String) : List String :=
  closureFuel p ((pipelineNames p outs).length + 1) outs.dedup

/-- A name is ready to be scheduled when each of its direct dependencies that
lies in the scheduling scope has already been scheduled. -/
def readyFor {V : Type} (p : DataPipeline V) (scope done : List String) (f : String) : Bool :=
  (depsOf p f).all (fun a => !(decide (a ∈ scope)) || decide (a ∈ done))

/-- Pick the first ready name from the worklist (registration-order tie-break),
returning it together with the remaining worklist. -/
def pickReady {V : Type} (p : DataPipeline V) (scope done : List String) :
    List String → Option (String × List String)
  | [] => none
  | f :: rest =>
    if readyFor p scope done f then some (f, rest)
    else
      match pickReady p scope done rest with
      | none => none
      | some (g, r) => some (g, f :: r)

/-- The scheduling loop: repeatedly move the first ready name from the worklist
to the end of the schedule; fail when no name is ready (a dependency cycle). -/
def topoGo {V : Type} (p : DataPipeline V) (scope : List String) :
    Nat → List String → List String → Option (List String)
  | 0, todo, done => if todo.isEmpty then some done else none
  | fuel + 1, todo, done =>
    if todo.isEmpty then some done
    else
      match pickReady p scope done todo with
      | none => none
      | some (f, rest) => topoGo p scope fuel rest (done ++ [f])

/-- Modelled from the spec: topological_order of the missing data-pipeline
module — a dependency-first ordering of the derived names in scope with
registration-order tie-break, or failure on a cycle. -/
def topoOrder {V : Type} (p : DataPipeline V) (scope : List String) : Option (List String) :=
  topoGo p scope scope.length scope []

/-- Modelled from the spec: build of the missing data-pipeline module —
constructs the dependency order over all registered names, failing with a
CyclicDependencyError when a derived name transitively depends on itself. -/
def DataPipeline.build {V : Type} (p : DataPipeline V) : Except PipelineError (List String) :=
  match topoOrder p (derivedNames p).dedup with
  | some order => Except.ok order
  | none => Except.error (PipelineError.cyclicDependencyError (derivedNames p).dedup)

/-- Gather the values of the argnames from the invocation frame, in order. -/
def gatherArgs {V : Type} (frame : List (String × V)) : List String → Option (List V)
  | [] => some []
  | a :: rest =>
    match lookupName a frame, gatherArgs frame rest with
    | some v, some vs => some (v :: vs)
    | _, _ => none

/-- The execution loop: invoke each scheduled function in order, binding its
result in the frame (a derived value shadows a same-named raw input).  The first
component is the invocation trace — the names whose callables were invoked, in
order — which is reported on failure as well. -/
def execGo {V : Type} (p : DataPipeline V) :
    List String → List (String × V) → List String →
    List String × Except PipelineError (List (String × V))
  | [], frame, tr => (tr, Except.ok frame)
  | f :: rest, frame, tr =>
    match lookupFunc p f with
    | none => (tr, Except.error (PipelineError.missingInputError [f]))
    | some node =>
      match gatherArgs frame node.argnames with
      | none =>
        (tr, Except.error (PipelineError.missingInputError
          (node.argnames.filter (fun a => (lookupName a frame).isNone))))
      | some args => execGo p rest ((f, node.func args) :: frame) (tr ++ [f])

/-- Collect the requested outputs from the final frame, in selection order. -/
def collectOutputs {V : Type} (frame : List (String × V)) :
    List String → Option (List (String × V))
  | [] => some []
  | n :: rest =>
    match lookupName n frame, collectOutputs frame rest with
    | some v, some outs => some ((n, v) :: outs)
    | _, _ => none

/-- The required input leaves of the current output selection that are absent
from the supplied inputs. -/
def missingInputs {V : Type} (p : DataPipeline V) (inputs : List (String × V)) :
    List String :=
  (requiredClosure p p.output_names).filter
    (fun n => (lookupFunc p n).isNone && (lookupName n inputs).isNone)

/-- The derived names of the required closure of the current output selection,
in registration order: the functions an evaluation call must execute. -/
def evalScope {V : Type} (p : DataPipeline V) : List String :=
  (derivedNames p).dedup.filter (fun n => decide (n ∈ requiredClosure p p.output_names))

/-- Collect the selected outputs from the final frame of an execution run, or
propagate its error. -/
def finishEval {V : Type} (p : DataPipeline V)
    (res : List String × Except PipelineError (List (String × V))) :
    List String × Except PipelineError (List (String × V)) :=
  match res with
  | (tr, Except.error e) => (tr, Except.error e)
  | (tr, Except.ok frame) =>
    match collectOutputs frame p.output_names with
    | some outs => (tr, Except.ok outs)
    | none =>
      (tr, Except.error (PipelineError.missingInputError
        (p.output_names.filter (fun n => (lookupName n frame).isNone))))

/-- Modelled from the spec: evaluate of the missing data-pipeline module,
instrumented with the invocation trace.  Computes the required closure of the
current output selection, fails with a MissingInputError naming every required
input leaf absent from the supplied inputs, orders the derived names of the
closure (failing with a CyclicDependencyError on a cycle), executes them once
each over a frame seeded with the inputs (a derived value shadows a same-named
raw input), and returns the mapping restricted to the output selection.  The
first component is the list of invoked function names in invocation order. -/
def DataPipeline.evaluateWithTrace {V : Type} (p : DataPipeline V)
    (inputs : List (String × V)) :
    List String × Except PipelineError (List (String × V)) :=
  if (missingInputs p inputs).isEmpty then
    match topoOrder p (evalScope p) with
    | none => ([], Except.error (PipelineError.cyclicDependencyError (evalScope p)))
    | some order => finishEval p (execGo p order inputs [])
  else ([], Except.error (PipelineError.missingInputError (missingInputs p inputs)))

/-- The result mapping of an evaluation call (the data-plane interface). -/
def DataPipeline.evaluate {V : Type} (p : DataPipeline V) (inputs : List (String × V)) :
    Except PipelineError (List (String × V)) :=
  (p.evaluateWithTrace inputs).2

/-- The invocation order of an evaluation call: which registered callables ran,
in which order. -/
def DataPipeline.callOrder {V : Type} (p : DataPipeline V) (inputs : List (String × V)) :
    List String :=
  (p.evaluateWithTrace inputs).1

/-- A schedule is dependency-sound past a set of already-seen names: each entry
has all of its in-scope dependencies among the names seen before it. -/
def TopoOkFrom {V : Type} (p : DataPipeline V) (scope : List String) :
    List String → List String → Prop
  | _, [] => True
  | seen, f :: rest =>
    (∀ a ∈ depsOf p f, a ∈ scope → a ∈ seen) ∧ TopoOkFrom p scope (seen ++ [f]) rest

/-- Position of the first occurrence of a name in a list (the list length when
absent). -/
def posIn (n : String) : List String → Nat
  | [] => 0
  | x :: rest => if x = n then 0 else posIn n rest + 1

/-- Sum of a list of naturals, used as a concrete registered callable. -/
def sumList (vs : List Nat) : Nat := vs.foldl (fun a b => a + b) 0

/-- Concrete pipeline: a diamond d(x), a(d), b(d) with both a and b requested. -/
def wpipeDiamond : DataPipeline Nat :=
  { funcs := [("d", ⟨["x"], fun vs => sumList vs + 10⟩),
              ("a", ⟨["d"], fun vs => sumList vs + 1⟩),
              ("b", ⟨["d"], fun vs => sumList vs + 2⟩)],
    output_names := ["a", "b"] }

/-- Concrete pipeline: foobar(foo, bar) registered but only truebar(foo) requested. -/
def wpipeLazy : DataPipeline Nat :=
  { funcs := [("foobar", ⟨["foo", "bar"], sumList⟩),
              ("truebar", ⟨["foo"], sumList⟩)],
    output_names := ["truebar"] }

/-- Concrete pipeline: foobar(foo, bar) registered and requested. -/
def wpipeFoobar : DataPipeline Nat :=
  { funcs := [("foobar", ⟨["foo", "bar"], sumList⟩)], output_names := ["foobar"] }

/-- Concrete pipeline: foobar(foo, bar) registered; foobar and the raw input foo
requested. -/
def wpipeFoobarFoo : DataPipeline Nat :=
  { funcs := [("foobar", ⟨["foo", "bar"], sumList⟩)],
    output_names := ["foobar", "foo"] }

/-- Concrete pipeline: the cyclic registration a(b), b(a). -/
def wpipeCycle : DataPipeline Nat :=
  { funcs := [("a", ⟨["b"], sumList⟩), ("b", ⟨["a"], sumList⟩)],
    output_names := [] }


theorem lookupName_cons {V : Type} (k n : String) (v : V) (l : List (String × V)) :
    lookupName n ((k, v) :: l) = if k = n then some v else lookupName n l := rfl

theorem mem_keys_of_lookupName_isSome {V : Type} {n : String} :
    ∀ {l : List (String × V)}, (lookupName n l).isSome → n ∈ l.map Prod.fst := by
  intro l
  induction l with
  | nil => intro h; simp [lookupName] at h
  | cons kv rest ih =>
    intro h
    obtain ⟨k, w⟩ := kv
    rw [lookupName_cons] at h
    by_cases hk : k = n
    · subst hk; simp
    · simp only [hk, if_false] at h
      simpa using Or.inr (ih h)

theorem lookupName_isSome_of_mem_keys {V : Type} {n : String} :
    ∀ {l : List (String × V)}, n ∈ l.map Prod.fst → (lookupName n l).isSome := by
  intro l
  induction l with
  | nil => intro h; simp at h
  | cons kv rest ih =>
    intro h
    obtain ⟨k, w⟩ := kv
    rw [lookupName_cons]
    by_cases hk : k = n
    · simp [hk]
    · simp only [hk, if_false]
      apply ih
      simp only [List.map_cons, List.mem_cons] at h
      rcases h with h | h
      · exact absurd h.symm hk
      · exact h

theorem mem_depsUnion {V : Type} (p : DataPipeline V) (y : String) :
    ∀ l : List String, y ∈ depsUnion p l ↔ ∃ x ∈ l, y ∈ depsOf p x := by
  intro l
  induction l with
  | nil => simp [depsUnion]
  | cons x rest ih =>
    simp only [depsUnion, List.mem_append, ih, List.mem_cons]
    constructor
    · rintro (h | ⟨z, hz, hy⟩)
      · exact ⟨x, Or.inl rfl, h⟩
      · exact ⟨z, Or.inr hz, hy⟩
    · rintro ⟨z, hz | hz, hy⟩
      · subst hz; exact Or.inl hy
      · exact Or.inr ⟨z, hz, hy⟩

theorem depsOf_subset_pipelineNames {V : Type} (p : DataPipeline V) (outs : List String)
    {x y : String} (hy : y ∈ depsOf p x) : y ∈ pipelineNames p outs := by
  have hx : x ∈ derivedNames p := by
    unfold depsOf at hy
    cases hfn : lookupFunc p x with
    | none => rw [hfn] at hy; simp at hy
    | some node =>
      exact mem_keys_of_lookupName_isSome (by unfold lookupFunc at hfn; simp [hfn])
  unfold pipelineNames
  rw [List.mem_dedup]
  refine List.mem_append.mpr (Or.inl (List.mem_append.mpr (Or.inr ?_)))
  exact (mem_depsUnion p y (derivedNames p)).mpr ⟨x, hx, hy⟩

theorem closureFuel_invariant {V : Type} (p : DataPipeline V) (P : String → Prop)
    (hstep : ∀ x y, P x → y ∈ depsOf p x → P y) :
    ∀ fuel acc, (∀ x ∈ acc, P x) → ∀ x ∈ closureFuel p fuel acc, P x := by
  intro fuel
  induction fuel with
  | zero => intro acc hacc x hx; exact hacc x hx
  | succ fuel ih =>
    intro acc hacc x hx
    rw [closureFuel] at hx
    by_cases hstop : ((depsUnion p acc ++ acc).dedup).length = acc.length
    · simp only [hstop, if_true] at hx
      exact hacc x hx
    · simp only [hstop, if_false] at hx
      refine ih _ ?_ x hx
      intro z hz
      rw [List.mem_dedup, List.mem_append] at hz
      rcases hz with hz | hz
      · obtain ⟨w, hw, hzw⟩ := (mem_depsUnion p z acc).mp hz
        exact hstep w z (hacc w hw) hzw
      · exact hacc z hz

theorem subset_closureFuel {V : Type} (p : DataPipeline V) :
    ∀ fuel acc, acc ⊆ closureFuel p fuel acc := by
  intro fuel
  induction fuel with
  | zero => intro acc; rw [closureFuel]; exact fun _ h => h
  | succ fuel ih =>
    intro acc
    rw [closureFuel]
    by_cases hstop : ((depsUnion p acc ++ acc).dedup).length = acc.length
    · simp only [hstop, if_true]; exact fun _ h => h
    · simp only [hstop, if_false]
      intro x hx
      exact ih _ (by rw [List.mem_dedup, List.mem_append]; exact Or.inr hx) 

theorem closureFuel_closed {V : Type} (p : DataPipeline V) (U : List String)
    (hU : U.Nodup) (hdeps : ∀ x y, y ∈ depsOf p x → y ∈ U) :
    ∀ fuel acc, acc.Nodup → acc ⊆ U → U.length + 1 ≤ fuel + acc.length →
    ∀ x ∈ closureFuel p fuel acc, depsOf p x ⊆ closureFuel p fuel acc := by
  intro fuel
  induction fuel with
  | zero =>
    intro acc haccn haccU hlen
    exfalso
    have hle : acc.length ≤ U.length :=
      (List.subperm_of_subset haccn haccU).length_le
    omega
  | succ fuel ih =>
    intro acc haccn haccU hlen x hx
    rw [closureFuel] at hx ⊢
    by_cases hstop : ((depsUnion p acc ++ acc).dedup).length = acc.length
    · simp only [hstop, if_true] at hx ⊢
      have hsub : acc ⊆ (depsUnion p acc ++ acc).dedup := by
        intro a ha; rw [List.mem_dedup, List.mem_append]; exact Or.inr ha
      have hperm : acc.Perm ((depsUnion p acc ++ acc).dedup) :=
        (List.subperm_of_subset haccn hsub).perm_of_length_le (le_of_eq hstop)
      intro y hy
      have : y ∈ (depsUnion p acc ++ acc).dedup := by
        rw [List.mem_dedup, List.mem_append]
        exact Or.inl ((mem_depsUnion p y acc).mpr ⟨x, hx, hy⟩)
      exact hperm.mem_iff.mpr this
    · simp only [hstop, if_false] at hx ⊢
      have hnextn : ((depsUnion p acc ++ acc).dedup).Nodup := List.nodup_dedup _
      have hnextU : (depsUnion p acc ++ acc).dedup ⊆ U := by
        intro a ha
        rw [List.mem_dedup, List.mem_append] at ha
        rcases ha with ha | ha
        · obtain ⟨w, _, hw⟩ := (mem_depsUnion p a acc).mp ha
          exact hdeps w a hw
        · exact haccU ha
      have hgrow : acc.length ≤ ((depsUnion p acc ++ acc).dedup).length := by
        have hsub : acc ⊆ (depsUnion p acc ++ acc).dedup := by
          intro a ha; rw [List.mem_dedup, List.mem_append]; exact Or.inr ha
        exact (List.subperm_of_subset haccn hsub).length_le
      exact ih _ hnextn hnextU (by omega) x hx

theorem requiredClosure_closed {V : Type} (p : DataPipeline V) (outs : List String) :
    ∀ x ∈ requiredClosure p outs, depsOf p x ⊆ requiredClosure p outs := by
  refine closureFuel_closed p (pipelineNames p outs) (List.nodup_dedup _)
    (fun x y hy => depsOf_subset_pipelineNames p outs hy) _ _
    (List.nodup_dedup _) ?_ ?_
  · intro a ha
    rw [List.mem_dedup] at ha
    unfold pipelineNames
    rw [List.mem_dedup, List.mem_append, List.mem_append]
    exact Or.inl (Or.inl ha)
  · omega

theorem mem_requiredClosure_of_mem {V : Type} (p : DataPipeline V) (outs : List String)
    {n : String} (h : n ∈ outs) : n ∈ requiredClosure p outs :=
  subset_closureFuel p _ _ (List.mem_dedup.mpr h)

theorem requiredClosure_sound {V : Type} (p : DataPipeline V) (outs : List String)
    {n : String} (h : n ∈ requiredClosure p outs) :
    ∃ m ∈ outs, Relation.ReflTransGen (DependsOn p) m n := by
  refine closureFuel_invariant p (fun z => ∃ m ∈ outs, Relation.ReflTransGen (DependsOn p) m z)
    ?_ _ _ ?_ n h
  · rintro x y ⟨m, hm, hrtg⟩ hy
    exact ⟨m, hm, hrtg.tail hy⟩
  · intro x hx
    exact ⟨x, List.mem_dedup.mp hx, Relation.ReflTransGen.refl⟩

theorem derived_of_mem_depsOf {V : Type} {p : DataPipeline V} {x y : String}
    (h : y ∈ depsOf p x) : x ∈ derivedNames p := by
  unfold depsOf at h
  cases hfn : lookupFunc p x with
  | none => rw [hfn] at h; simp at h
  | some node =>
    exact mem_keys_of_lookupName_isSome (by unfold lookupFunc at hfn; simp [hfn])

theorem readyFor_iff {V : Type} (p : DataPipeline V) (scope done : List String) (f : String) :
    readyFor p scope done f = true ↔ ∀ a ∈ depsOf p f, a ∈ scope → a ∈ done := by
  unfold readyFor
  rw [List.all_eq_true]
  constructor
  · intro h a ha hs
    have := h a ha
    simp only [Bool.or_eq_true, Bool.not_eq_true', decide_eq_true_eq, decide_eq_false_iff_not]
      at this
    rcases this with h' | h'
    · exact absurd hs h'
    · exact h'
  · intro h a ha
    simp only [Bool.or_eq_true, Bool.not_eq_true', decide_eq_true_eq, decide_eq_false_iff_not]
    by_cases hs : a ∈ scope
    · exact Or.inr (h a ha hs)
    · exact Or.inl hs

theorem readyFor_eq_false {V : Type} (p : DataPipeline V) (scope done : List String)
    (f : String) (h : readyFor p scope done f = false) :
    ∃ a ∈ depsOf p f, a ∈ scope ∧ a ∉ done := by
  have hnot : ¬ (readyFor p scope done f = true) := by simp [h]
  rw [readyFor_iff] at hnot
  push_neg at hnot
  exact hnot

theorem pickReady_none {V : Type} (p : DataPipeline V) (scope done : List String) :
    ∀ todo, pickReady p scope done todo = none →
    ∀ f ∈ todo, readyFor p scope done f = false := by
  intro todo
  induction todo with
  | nil => intro _ f hf; simp at hf
  | cons g rest ih =>
    intro h f hf
    rw [pickReady] at h
    by_cases hg : readyFor p scope done g = true
    · rw [if_pos hg] at h; simp at h
    · rw [if_neg hg] at h
      rcases List.mem_cons.mp hf with hf | hf
      · subst hf; exact Bool.not_eq_true _ ▸ hg
      · cases hrec : pickReady p scope done rest with
        | none => exact ih hrec f hf
        | some pr => rw [hrec] at h; simp at h

theorem pickReady_some {V : Type} (p : DataPipeline V) (scope done : List String) :
    ∀ todo f rest, pickReady p scope done todo = some (f, rest) →
    readyFor p scope done f = true ∧ (f :: rest).Perm todo := by
  intro todo
  induction todo with
  | nil => intro f rest h; simp [pickReady] at h
  | cons g tl ih =>
    intro f rest h
    rw [pickReady] at h
    by_cases hg : readyFor p scope done g = true
    · rw [if_pos hg] at h
      simp only [Option.some.injEq, Prod.mk.injEq] at h
      obtain ⟨h1, h2⟩ := h
      subst h1; subst h2
      exact ⟨hg, List.Perm.refl _⟩
    · rw [if_neg hg] at h
      cases hrec : pickReady p scope done tl with
      | none => rw [hrec] at h; simp at h
      | some pr =>
        obtain ⟨g', r'⟩ := pr
        rw [hrec] at h
        simp only [Option.some.injEq, Prod.mk.injEq] at h
        obtain ⟨h1, h2⟩ := h
        subst h1
        obtain ⟨hready, hperm⟩ := ih g' r' hrec
        subst h2
        exact ⟨hready, (List.Perm.swap g g' r').trans (hperm.cons g)⟩

theorem topoGo_some_perm {V : Type} (p : DataPipeline V) (scope : List String) :
    ∀ fuel todo done order, topoGo p scope fuel todo done = some order →
    order.Perm (done ++ todo) := by
  intro fuel
  induction fuel with
  | zero =>
    intro todo done order h
    rw [topoGo] at h
    by_cases he : todo.isEmpty
    · rw [if_pos he] at h
      rw [List.isEmpty_iff] at he
      subst he
      simp only [Option.some.injEq] at h
      subst h
      simp
    · rw [if_neg he] at h; simp at h
  | succ fuel ih =>
    intro todo done order h
    rw [topoGo] at h
    by_cases he : todo.isEmpty
    · rw [if_pos he] at h
      rw [List.isEmpty_iff] at he
      subst he
      simp only [Option.some.injEq] at h
      subst h
      simp
    · rw [if_neg he] at h
      cases hpick : pickReady p scope done todo with
      | none => rw [hpick] at h; simp at h
      | some pr =>
        obtain ⟨f, rest⟩ := pr
        rw [hpick] at h
        obtain ⟨_, hperm⟩ := pickReady_some p scope done todo f rest hpick
        have hrec := ih rest (done ++ [f]) order h
        refine hrec.trans ?_
        have : (done ++ [f]) ++ rest = done ++ (f :: rest) := by simp
        rw [this]
        exact List.Perm.append_left done hperm

theorem topoGo_some_topoOk {V : Type} (p : DataPipeline V) (scope : List String) :
    ∀ fuel todo done order, topoGo p scope fuel todo done = some order →
    ∃ tail, order = done ++ tail ∧ TopoOkFrom p scope done tail := by
  intro fuel
  induction fuel with
  | zero =>
    intro todo done order h
    rw [topoGo] at h
    by_cases he : todo.isEmpty
    · rw [if_pos he] at h
      simp only [Option.some.injEq] at h
      subst h
      exact ⟨[], by simp, trivial⟩
    · rw [if_neg he] at h; simp at h
  | succ fuel ih =>
    intro todo done order h
    rw [topoGo] at h
    by_cases he : todo.isEmpty
    · rw [if_pos he] at h
      simp only [Option.some.injEq] at h
      subst h
      exact ⟨[], by simp, trivial⟩
    · rw [if_neg he] at h
      cases hpick : pickReady p scope done todo with
      | none => rw [hpick] at h; simp at h
      | some pr =>
        obtain ⟨f, rest⟩ := pr
        rw [hpick] at h
        obtain ⟨hready, _⟩ := pickReady_some p scope done todo f rest hpick
        obtain ⟨tail, horder, hok⟩ := ih rest (done ++ [f]) order h
        refine ⟨f :: tail, ?_, ?_⟩
        · rw [horder]; simp
        · exact ⟨(readyFor_iff p scope done f).mp hready, hok⟩

theorem posIn_lt_length {n : String} : ∀ {l : List String}, n ∈ l → posIn n l < l.length := by
  intro l
  induction l with
  | nil => intro h; simp at h
  | cons x rest ih =>
    intro h
    rw [posIn]
    by_cases hx : x = n
    · rw [if_pos hx]; simp
    · rw [if_neg hx]
      have : n ∈ rest := by
        rcases List.mem_cons.mp h with h' | h'
        · exact absurd h'.symm hx
        · exact h'
      simpa [List.length_cons] using Nat.succ_lt_succ (ih this)

theorem posIn_inj {a b : String} : ∀ {l : List String}, a ∈ l → b ∈ l →
    posIn a l = posIn b l → a = b := by
  intro l
  induction l with
  | nil => intro ha; simp at ha
  | cons x rest ih =>
    intro ha hb h
    rw [posIn, posIn] at h
    by_cases hxa : x = a
    · by_cases hxb : x = b
      · rw [← hxa, ← hxb]
      · rw [if_pos hxa, if_neg hxb] at h; simp at h
    · by_cases hxb : x = b
      · rw [if_neg hxa, if_pos hxb] at h; simp at h
      · rw [if_neg hxa, if_neg hxb] at h
        have ha' : a ∈ rest := by
          rcases List.mem_cons.mp ha with h' | h'
          · exact absurd h'.symm hxa
          · exact h'
        have hb' : b ∈ rest := by
          rcases List.mem_cons.mp hb with h' | h'
          · exact absurd h'.symm hxb
          · exact h'
        exact ih ha' hb' (Nat.succ_injective h)

theorem posIn_append_left {a : String} :
    ∀ {l₁ : List String} (l₂ : List String), a ∈ l₁ →
    posIn a (l₁ ++ l₂) = posIn a l₁ := by
  intro l₁
  induction l₁ with
  | nil => intro l₂ h; simp at h
  | cons x rest ih =>
    intro l₂ h
    rw [List.cons_append, posIn, posIn]
    by_cases hx : x = a
    · rw [if_pos hx, if_pos hx]
    · rw [if_neg hx, if_neg hx]
      have : a ∈ rest := by
        rcases List.mem_cons.mp h with h' | h'
        · exact absurd h'.symm hx
        · exact h'
      rw [ih l₂ this]

theorem posIn_append_right {a : String} :
    ∀ {l₁ : List String} (l₂ : List String), a ∉ l₁ →
    posIn a (l₁ ++ l₂) = l₁.length + posIn a l₂ := by
  intro l₁
  induction l₁ with
  | nil => intro l₂ _; simp
  | cons x rest ih =>
    intro l₂ h
    rw [List.cons_append, posIn]
    have hx : x ≠ a := fun hxa => h (by rw [hxa]; exact List.mem_cons_self _ _)
    rw [if_neg hx, ih l₂ (fun ha => h (List.mem_cons_of_mem x ha))]
    simp [List.length_cons]
    omega

theorem cycle_of_serial (r : String → String → Prop) (l : List String) (hne : l ≠ [])
    (hser : ∀ a ∈ l, ∃ b, b ∈ l ∧ r a b) :
    ∃ a, a ∈ l ∧ Relation.TransGen r a a := by
  classical
  obtain ⟨a₀, ha₀⟩ := List.exists_mem_of_ne_nil l hne
  have hsucc : ∀ x : {y // y ∈ l}, ∃ z : {y // y ∈ l}, r x.1 z.1 := by
    rintro ⟨x, hx⟩
    obtain ⟨b, hb, hrb⟩ := hser x hx
    exact ⟨⟨b, hb⟩, hrb⟩
  choose f hf using hsucc
  set g : Nat → {y // y ∈ l} := fun n => f^[n] ⟨a₀, ha₀⟩ with hg
  have hgstep : ∀ n, r (g n).1 (g (n + 1)).1 := by
    intro n
    have hit : g (n + 1) = f (g n) := Function.iterate_succ_apply' f n _
    rw [hit]
    exact hf (g n)
  have hchain : ∀ d i, Relation.TransGen r (g i).1 (g (i + d + 1)).1 := by
    intro d
    induction d with
    | zero => intro i; exact Relation.TransGen.single (hgstep i)
    | succ d ihd =>
      intro i
      have step := (ihd i).tail (hgstep (i + d + 1))
      have harith : i + d + 1 + 1 = i + (d + 1) + 1 := by omega
      rw [harith] at step
      exact step
  have hcard : Fintype.card (Fin l.length) < Fintype.card (Fin (l.length + 1)) := by
    simp
  obtain ⟨i, j, hij, hgij⟩ := Fintype.exists_ne_map_eq_of_card_lt
    (fun i : Fin (l.length + 1) =>
      (⟨posIn (g i.1).1 l, posIn_lt_length (g i.1).2⟩ : Fin l.length)) hcard
  have heq : (g i.1).1 = (g j.1).1 :=
    posIn_inj (g i.1).2 (g j.1).2 (congrArg Fin.val hgij)
  rcases Nat.lt_trichotomy i.1 j.1 with hlt | heqij | hgt
  · obtain ⟨d, hd⟩ : ∃ d, j.1 = i.1 + d + 1 := ⟨j.1 - i.1 - 1, by omega⟩
    refine ⟨(g i.1).1, (g i.1).2, ?_⟩
    have := hchain d i.1
    rw [← hd] at this
    rw [← heq] at this
    exact this
  · exact absurd (Fin.ext heqij) hij
  · obtain ⟨d, hd⟩ : ∃ d, i.1 = j.1 + d + 1 := ⟨i.1 - j.1 - 1, by omega⟩
    refine ⟨(g j.1).1, (g j.1).2, ?_⟩
    have := hchain d j.1
    rw [← hd] at this
    rw [heq] at this
    exact this

theorem topoGo_none_cycle {V : Type} (p : DataPipeline V) (scope : List String) :
    ∀ fuel todo done, topoGo p scope fuel todo done = none →
    todo.length ≤ fuel → (∀ a ∈ scope, a ∈ done ∨ a ∈ todo) →
    ∃ n ∈ todo, Relation.TransGen (DependsOn p) n n := by
  intro fuel
  induction fuel with
  | zero =>
    intro todo done h hlen _
    rw [topoGo] at h
    have he : todo = [] := List.length_eq_zero.mp (Nat.le_zero.mp hlen)
    rw [he] at h
    simp at h
  | succ fuel ih =>
    intro todo done h hlen hinv
    rw [topoGo] at h
    by_cases he : todo.isEmpty
    · rw [if_pos he] at h; simp at h
    · rw [if_neg he] at h
      cases hpick : pickReady p scope done todo with
      | none =>
        have hne : todo ≠ [] := fun hnil => he (by rw [hnil]; rfl)
        have hser : ∀ f ∈ todo, ∃ b, b ∈ todo ∧ DependsOn p f b := by
          intro f hf
          obtain ⟨a, ha, hascope, hadone⟩ :=
            readyFor_eq_false p scope done f (pickReady_none p scope done todo hpick f hf)
          rcases hinv a hascope with hcase | hcase
          · exact absurd hcase hadone
          · exact ⟨a, hcase, ha⟩
        obtain ⟨n, hn, hcyc⟩ := cycle_of_serial (DependsOn p) todo hne hser
        exact ⟨n, hn, hcyc⟩
      | some pr =>
        obtain ⟨f, rest⟩ := pr
        rw [hpick] at h
        obtain ⟨_, hperm⟩ := pickReady_some p scope done todo f rest hpick
        have hlen' : rest.length ≤ fuel := by
          have := hperm.length_eq
          simp only [List.length_cons] at this
          omega
        have hinv' : ∀ a ∈ scope, a ∈ done ++ [f] ∨ a ∈ rest := by
          intro a ha
          rcases hinv a ha with hcase | hcase
          · exact Or.inl (List.mem_append.mpr (Or.inl hcase))
          · rcases List.mem_cons.mp (hperm.mem_iff.mpr hcase) with hcase' | hcase'
            · exact Or.inl (List.mem_append.mpr (Or.inr (by simp [hcase'])))
            · exact Or.inr hcase'
        obtain ⟨n, hn, hcyc⟩ := ih rest (done ++ [f]) h hlen' hinv'
        exact ⟨n, hperm.mem_iff.mp (List.mem_cons_of_mem f hn), hcyc⟩

theorem topoOrder_some_perm {V : Type} (p : DataPipeline V) (scope order : List String)
    (h : topoOrder p scope = some order) : order.Perm scope := by
  have := topoGo_some_perm p scope scope.length scope [] order h
  simpa using this

theorem topoOrder_some_topoOk {V : Type} (p : DataPipeline V) (scope order : List String)
    (h : topoOrder p scope = some order) : TopoOkFrom p scope [] order := by
  obtain ⟨tail, htail, hok⟩ := topoGo_some_topoOk p scope scope.length scope [] order h
  simp only [List.nil_append] at htail
  rw [htail]
  exact hok

theorem topoOrder_none_cycle {V : Type} (p : DataPipeline V) (scope : List String)
    (h : topoOrder p scope = none) :
    ∃ n ∈ scope, Relation.TransGen (DependsOn p) n n :=
  topoGo_none_cycle p scope scope.length scope [] h (le_refl _)
    (fun a ha => Or.inr ha)

theorem topoOkFrom_mem {V : Type} (p : DataPipeline V) (scope : List String) :
    ∀ (tail seen : List String), TopoOkFrom p scope seen tail →
    ∀ f ∈ tail, ∃ l₁ l₂, tail = l₁ ++ f :: l₂ ∧
      (∀ a ∈ depsOf p f, a ∈ scope → a ∈ seen ++ l₁) := by
  intro tail
  induction tail with
  | nil => intro seen _ f hf; simp at hf
  | cons g rest ih =>
    intro seen hok f hf
    obtain ⟨hg, hrest⟩ := hok
    rcases List.mem_cons.mp hf with hf' | hf'
    · subst hf'
      exact ⟨[], rest, by simp, fun a ha hs => by simpa using hg a ha hs⟩
    · obtain ⟨l₁, l₂, heq, hdeps⟩ := ih (seen ++ [g]) hrest f hf'
      refine ⟨g :: l₁, l₂, by rw [heq, List.cons_append], ?_⟩
      intro a ha hs
      have := hdeps a ha hs
      simp only [List.append_assoc, List.singleton_append] at this ⊢
      exact this

theorem topoOk_dep_posIn {V : Type} (p : DataPipeline V) (scope order : List String)
    (hok : TopoOkFrom p scope [] order) (hnd : order.Nodup)
    {f a : String} (hf : f ∈ order) (ha : a ∈ depsOf p f) (hs : a ∈ scope) :
    posIn a order < posIn f order := by
  obtain ⟨l₁, l₂, heq, hdeps⟩ := topoOkFrom_mem p scope order [] hok f hf
  have hal : a ∈ l₁ := by simpa using hdeps a ha hs
  have hfl : f ∉ l₁ := by
    rw [heq] at hnd
    have := List.disjoint_of_nodup_append hnd
    intro hmem
    exact this hmem (List.mem_cons_self f l₂)
  rw [heq, posIn_append_left (f :: l₂) hal, posIn_append_right (f :: l₂) hfl]
  have h1 : posIn a l₁ < l₁.length := posIn_lt_length hal
  have h2 : posIn f (f :: l₂) = 0 := by rw [posIn, if_pos rfl]
  omega

theorem transGen_posIn_lt {V : Type} (p : DataPipeline V) (scope order : List String)
    (hok : TopoOkFrom p scope [] order) (hnd : order.Nodup)
    (hscope : ∀ x, x ∈ derivedNames p → x ∈ scope) (hperm : order.Perm scope) :
    ∀ {x y : String}, Relation.TransGen (DependsOn p) x y → y ∈ derivedNames p →
    posIn y order < posIn x order := by
  intro x y h
  induction h with
  | single hstep =>
    rename_i b
    intro hbd
    have hmem : b ∈ depsOf p x := hstep
    have hxd : x ∈ derivedNames p := derived_of_mem_depsOf hmem
    have hxorder : x ∈ order := hperm.mem_iff.mpr (hscope x hxd)
    exact topoOk_dep_posIn p scope order hok hnd hxorder hmem (hscope b hbd)
  | tail hxb hby ih =>
    rename_i b c
    intro hcd
    have hmem : c ∈ depsOf p b := hby
    have hbd : b ∈ derivedNames p := derived_of_mem_depsOf hmem
    have hborder : b ∈ order := hperm.mem_iff.mpr (hscope b hbd)
    have h1 : posIn c order < posIn b order :=
      topoOk_dep_posIn p scope order hok hnd hborder hmem (hscope c hcd)
    have h2 : posIn b order < posIn x order := ih hbd
    omega

theorem execGo_cons_nofunc {V : Type} (p : DataPipeline V) (f : String)
    (rest : List String) (frame : List (String × V)) (tr : List String)
    (hfn : lookupFunc p f = none) :
    execGo p (f :: rest) frame tr =
      (tr, Except.error (PipelineError.missingInputError [f])) := by
  rw [execGo, hfn]

theorem execGo_cons_noargs {V : Type} (p : DataPipeline V) (f : String)
    (rest : List String) (frame : List (String × V)) (tr : List String)
    (node : FunctionNode V) (hfn : lookupFunc p f = some node)
    (hargs : gatherArgs frame node.argnames = none) :
    execGo p (f :: rest) frame tr =
      (tr, Except.error (PipelineError.missingInputError
        (node.argnames.filter (fun a => (lookupName a frame).isNone)))) := by
  rw [execGo, hfn]
  simp [hargs]

theorem execGo_cons_step {V : Type} (p : DataPipeline V) (f : String)
    (rest : List String) (frame : List (String × V)) (tr : List String)
    (node : FunctionNode V) (args : List V) (hfn : lookupFunc p f = some node)
    (hargs : gatherArgs frame node.argnames = some args) :
    execGo p (f :: rest) frame tr =
      execGo p rest ((f, node.func args) :: frame) (tr ++ [f]) := by
  rw [execGo, hfn]
  simp [hargs]

theorem execGo_trace_subset {V : Type} (p : DataPipeline V) :
    ∀ (order : List String) (frame : List (String × V)) (tr : List String),
    ∃ t, (execGo p order frame tr).1 = tr ++ t ∧ ∀ x ∈ t, x ∈ order := by
  intro order
  induction order with
  | nil => intro frame tr; exact ⟨[], by rw [execGo]; simp, by simp⟩
  | cons f rest ih =>
    intro frame tr
    cases hfn : lookupFunc p f with
    | none =>
      exact ⟨[], by rw [execGo_cons_nofunc p f rest frame tr hfn]; simp, by simp⟩
    | some node =>
      cases hargs : gatherArgs frame node.argnames with
      | none =>
        exact ⟨[], by rw [execGo_cons_noargs p f rest frame tr node hfn hargs]; simp, by simp⟩
      | some args =>
        obtain ⟨t, ht, hsub⟩ := ih ((f, node.func args) :: frame) (tr ++ [f])
        refine ⟨f :: t, ?_, ?_⟩
        · rw [execGo_cons_step p f rest frame tr node args hfn hargs, ht]
          simp
        · intro x hx
          rcases List.mem_cons.mp hx with hx | hx
          · simp [hx]
          · exact List.mem_cons_of_mem f (hsub x hx)

theorem execGo_ok_trace {V : Type} (p : DataPipeline V) :
    ∀ (order : List String) (frame : List (String × V)) (tr tr' : List String)
      (fr : List (String × V)),
    execGo p order frame tr = (tr', Except.ok fr) → tr' = tr ++ order := by
  intro order
  induction order with
  | nil =>
    intro frame tr tr' fr h
    rw [execGo] at h
    simp only [Prod.mk.injEq] at h
    rw [← h.1]
    simp
  | cons f rest ih =>
    intro frame tr tr' fr h
    cases hfn : lookupFunc p f with
    | none => rw [execGo_cons_nofunc p f rest frame tr hfn] at h; simp at h
    | some node =>
      cases hargs : gatherArgs frame node.argnames with
      | none => rw [execGo_cons_noargs p f rest frame tr node hfn hargs] at h; simp at h
      | some args =>
        rw [execGo_cons_step p f rest frame tr node args hfn hargs] at h
        have := ih ((f, node.func args) :: frame) (tr ++ [f]) tr' fr h
        rw [this]
        simp

theorem execGo_ok_lookup {V : Type} (p : DataPipeline V) :
    ∀ (order : List String) (frame : List (String × V)) (tr tr' : List String)
      (fr : List (String × V)),
    execGo p order frame tr = (tr', Except.ok fr) →
    ∀ n, n ∉ order → lookupName n fr = lookupName n frame := by
  intro order
  induction order with
  | nil =>
    intro frame tr tr' fr h n _
    rw [execGo] at h
    simp only [Prod.mk.injEq, Except.ok.injEq] at h
    rw [← h.2]
  | cons f rest ih =>
    intro frame tr tr' fr h n hn
    cases hfn : lookupFunc p f with
    | none => rw [execGo_cons_nofunc p f rest frame tr hfn] at h; simp at h
    | some node =>
      cases hargs : gatherArgs frame node.argnames with
      | none => rw [execGo_cons_noargs p f rest frame tr node hfn hargs] at h; simp at h
      | some args =>
        rw [execGo_cons_step p f rest frame tr node args hfn hargs] at h
        have hnr : n ∉ rest := fun hmem => hn (List.mem_cons_of_mem f hmem)
        have hnf : f ≠ n := fun heq => hn (by rw [heq]; exact List.mem_cons_self _ _)
        rw [ih ((f, node.func args) :: frame) (tr ++ [f]) tr' fr h n hnr,
          lookupName_cons, if_neg hnf]

theorem collectOutputs_keys {V : Type} (frame : List (String × V)) :
    ∀ (names : List String) (outs : List (String × V)),
    collectOutputs frame names = some outs → outs.map Prod.fst = names := by
  intro names
  induction names with
  | nil => intro outs h; rw [collectOutputs] at h; simp only [Option.some.injEq] at h; simp [← h]
  | cons n rest ih =>
    intro outs h
    rw [collectOutputs] at h
    cases hv : lookupName n frame with
    | none => rw [hv] at h; simp at h
    | some v =>
      rw [hv] at h
      cases hrec : collectOutputs frame rest with
      | none => rw [hrec] at h; simp at h
      | some outs' =>
        rw [hrec] at h
        simp only [Option.some.injEq] at h
        rw [← h]
        simp [ih outs' hrec]

theorem collectOutputs_lookup {V : Type} (frame : List (String × V)) :
    ∀ (names : List String) (outs : List (String × V)),
    collectOutputs frame names = some outs →
    ∀ n ∈ names, lookupName n outs = lookupName n frame := by
  intro names
  induction names with
  | nil => intro outs _ n hn; simp at hn
  | cons m rest ih =>
    intro outs h n hn
    rw [collectOutputs] at h
    cases hv : lookupName m frame with
    | none => rw [hv] at h; simp at h
    | some v =>
      rw [hv] at h
      cases hrec : collectOutputs frame rest with
      | none => rw [hrec] at h; simp at h
      | some outs' =>
        rw [hrec] at h
        simp only [Option.some.injEq] at h
        subst h
        rw [lookupName_cons]
        by_cases hm : m = n
        · rw [if_pos hm, ← hm, hv]
        · rw [if_neg hm]
          rcases List.mem_cons.mp hn with hn' | hn'
          · exact absurd hn'.symm hm
          · exact ih outs' hrec n hn'

theorem mem_evalScope_iff {V : Type} (p : DataPipeline V) (n : String) :
    n ∈ evalScope p ↔ n ∈ derivedNames p ∧ n ∈ requiredClosure p p.output_names := by
  unfold evalScope
  rw [List.mem_filter, List.mem_dedup]
  simp [decide_eq_true_iff]

theorem evalScope_nodup {V : Type} (p : DataPipeline V) : (evalScope p).Nodup :=
  (List.nodup_dedup _).filter _

theorem evaluateWithTrace_eq_missing {V : Type} (p : DataPipeline V)
    (inputs : List (String × V)) (hm : (missingInputs p inputs).isEmpty = false) :
    p.evaluateWithTrace inputs =
      ([], Except.error (PipelineError.missingInputError (missingInputs p inputs))) := by
  unfold DataPipeline.evaluateWithTrace
  rw [if_neg (by simp [hm])]

theorem evaluateWithTrace_eq_cycle {V : Type} (p : DataPipeline V)
    (inputs : List (String × V)) (hm : (missingInputs p inputs).isEmpty = true)
    (hord : topoOrder p (evalScope p) = none) :
    p.evaluateWithTrace inputs =
      ([], Except.error (PipelineError.cyclicDependencyError (evalScope p))) := by
  unfold DataPipeline.evaluateWithTrace
  rw [if_pos (by simp [hm]), hord]

theorem evaluateWithTrace_eq_run {V : Type} (p : DataPipeline V)
    (inputs : List (String × V)) (order : List String)
    (hm : (missingInputs p inputs).isEmpty = true)
    (hord : topoOrder p (evalScope p) = some order) :
    p.evaluateWithTrace inputs = finishEval p (execGo p order inputs []) := by
  unfold DataPipeline.evaluateWithTrace
  rw [if_pos (by simp [hm]), hord]

theorem finishEval_error {V : Type} (p : DataPipeline V) (tr : List String)
    (e : PipelineError) :
    finishEval p (tr, Except.error e) = (tr, Except.error e) := rfl

theorem finishEval_ok {V : Type} (p : DataPipeline V) (tr : List String)
    (frame : List (String × V)) :
    finishEval p (tr, Except.ok frame) =
      (match collectOutputs frame p.output_names with
       | some outs => (tr, Except.ok outs)
       | none =>
         (tr, Except.error (PipelineError.missingInputError
           (p.output_names.filter (fun n => (lookupName n frame).isNone))))) := rfl

theorem finishEval_fst {V : Type} (p : DataPipeline V)
    (res : List String × Except PipelineError (List (String × V))) :
    (finishEval p res).1 = res.1 := by
  obtain ⟨tr, r⟩ := res
  cases r with
  | error e => rfl
  | ok frame =>
    rw [finishEval_ok]
    cases collectOutputs frame p.output_names <;> rfl

theorem evaluateWithTrace_ok_inv {V : Type} (p : DataPipeline V)
    (inputs : List (String × V)) (tr : List String) (outs : List (String × V))
    (h : p.evaluateWithTrace inputs = (tr, Except.ok outs)) :
    (missingInputs p inputs).isEmpty = true ∧
    ∃ order frame, topoOrder p (evalScope p) = some order ∧
      execGo p order inputs [] = (tr, Except.ok frame) ∧
      collectOutputs frame p.output_names = some outs := by
  by_cases hm : (missingInputs p inputs).isEmpty = true
  · refine ⟨hm, ?_⟩
    cases hord : topoOrder p (evalScope p) with
    | none =>
      rw [evaluateWithTrace_eq_cycle p inputs hm hord] at h
      simp at h
    | some order =>
      rw [evaluateWithTrace_eq_run p inputs order hm hord] at h
      rcases hE : execGo p order inputs [] with ⟨tr0, res⟩
      rw [hE] at h
      cases res with
      | error e => rw [finishEval_error] at h; simp at h
      | ok frame =>
        rw [finishEval_ok] at h
        cases hc : collectOutputs frame p.output_names with
        | none => rw [hc] at h; simp at h
        | some outs' =>
          rw [hc] at h
          simp only [Prod.mk.injEq, Except.ok.injEq] at h
          obtain ⟨h1, h2⟩ := h
          subst h1; subst h2
          exact ⟨order, frame, rfl, hE, hc⟩
  · have hm' : (missingInputs p inputs).isEmpty = false := by
      cases hbool : (missingInputs p inputs).isEmpty
      · rfl
      · exact absurd hbool hm
    rw [evaluateWithTrace_eq_missing p inputs hm'] at h
    simp at h

theorem evaluateWithTrace_fst_subset {V : Type} (p : DataPipeline V)
    (inputs : List (String × V)) :
    ∀ n ∈ (p.evaluateWithTrace inputs).1, n ∈ evalScope p := by
  by_cases hm : (missingInputs p inputs).isEmpty = true
  · cases hord : topoOrder p (evalScope p) with
    | none =>
      rw [evaluateWithTrace_eq_cycle p inputs hm hord]
      simp
    | some order =>
      rw [evaluateWithTrace_eq_run p inputs order hm hord]
      rw [finishEval_fst]
      obtain ⟨t, ht, hsub⟩ := execGo_trace_subset p order inputs []
      rw [ht]
      intro n hn
      have hperm := topoOrder_some_perm p (evalScope p) order hord
      have : n ∈ order := by
        rcases List.mem_append.mp hn with hcase | hcase
        · simp at hcase
        · exact hsub n hcase
      exact hperm.mem_iff.mp this
  · have hm' : (missingInputs p inputs).isEmpty = false := by
      cases hbool : (missingInputs p inputs).isEmpty
      · rfl
      · exact absurd hbool hm
    rw [evaluateWithTrace_eq_missing p inputs hm']
    simp

theorem lookupName_eq_none_of_not_mem_keys {V : Type} {n : String}
    {l : List (String × V)} (h : n ∉ l.map Prod.fst) : lookupName n l = none := by
  cases hl : lookupName n l with
  | none => rfl
  | some v => exact absurd (mem_keys_of_lookupName_isSome (by rw [hl]; rfl)) h

theorem evaluate_ok_pair {V : Type} (p : DataPipeline V) (inputs : List (String × V))
    (outs : List (String × V)) (h : p.evaluate inputs = Except.ok outs) :
    p.evaluateWithTrace inputs = (p.callOrder inputs, Except.ok outs) := by
  unfold DataPipeline.evaluate at h
  unfold DataPipeline.callOrder
  rcases hE : p.evaluateWithTrace inputs with ⟨tr, res⟩
  rw [hE] at h
  simp only [Prod.mk.injEq]
  exact ⟨trivial, h⟩

theorem evaluate_ok_keys {V : Type} (p : DataPipeline V) (inputs : List (String × V))
    (outs : List (String × V)) (h : p.evaluate inputs = Except.ok outs) :
    outs.map Prod.fst = p.output_names := by
  have hE := evaluate_ok_pair p inputs outs h
  obtain ⟨_, order, frame, _, _, hc⟩ := evaluateWithTrace_ok_inv p inputs _ outs hE
  exact collectOutputs_keys frame p.output_names outs hc

theorem no_dependents_of_not_mem_depsUnion {V : Type} (p : DataPipeline V) (y : String)
    (h : y ∉ depsUnion p (derivedNames p)) : ∀ b, ¬ DependsOn p b y := by
  intro b hdep
  have hmem : y ∈ depsOf p b := hdep
  have hb : b ∈ derivedNames p := derived_of_mem_depsOf hmem
  exact h ((mem_depsUnion p y (derivedNames p)).mpr ⟨b, hb, hmem⟩)

theorem no_transGen_of_no_direct {V : Type} (p : DataPipeline V) (y : String)
    (h : ∀ b, ¬ DependsOn p b y) :
    ∀ m, ¬ Relation.TransGen (DependsOn p) m y := by
  intro m hm
  cases hm with
  | single hstep => exact h _ hstep
  | tail _ hstep => exact h _ hstep

theorem gatherArgs_congr {V : Type} (k : String) (frame₁ frame₂ : List (String × V))
    (hR : ∀ n, n ≠ k → lookupName n frame₁ = lookupName n frame₂) :
    ∀ names, (∀ a ∈ names, a ≠ k) →
    gatherArgs frame₁ names = gatherArgs frame₂ names := by
  intro names
  induction names with
  | nil => intro _; rfl
  | cons a rest ih =>
    intro hkn
    rw [gatherArgs, gatherArgs, hR a (hkn a (List.mem_cons_self a rest)),
      ih (fun b hb => hkn b (List.mem_cons_of_mem a hb))]

theorem collectOutputs_congr {V : Type} (k : String) (fr₁ fr₂ : List (String × V))
    (hR : ∀ n, n ≠ k → lookupName n fr₁ = lookupName n fr₂) :
    ∀ names, (∀ n ∈ names, n ≠ k) →
    collectOutputs fr₁ names = collectOutputs fr₂ names := by
  intro names
  induction names with
  | nil => intro _; rfl
  | cons n rest ih =>
    intro hkn
    rw [collectOutputs, collectOutputs, hR n (hkn n (List.mem_cons_self n rest)),
      ih (fun b hb => hkn b (List.mem_cons_of_mem n hb))]

theorem execGo_congr {V : Type} (p : DataPipeline V) (k : String) :
    ∀ (order tr : List String) (frame₁ frame₂ : List (String × V)),
    (∀ f ∈ order, ∀ node, lookupFunc p f = some node → k ∉ node.argnames) →
    (∀ n, n ≠ k → lookupName n frame₁ = lookupName n frame₂) →
    (∀ tr' e, execGo p order frame₁ tr = (tr', Except.error e) →
        execGo p order frame₂ tr = (tr', Except.error e)) ∧
    (∀ tr' fr₁, execGo p order frame₁ tr = (tr', Except.ok fr₁) →
        ∃ fr₂, execGo p order frame₂ tr = (tr', Except.ok fr₂) ∧
          ∀ n, n ≠ k → lookupName n fr₁ = lookupName n fr₂) := by
  intro order
  induction order with
  | nil =>
    intro tr frame₁ frame₂ _ hR
    constructor
    · intro tr' e h
      rw [execGo] at h
      simp at h
    · intro tr' fr₁ h
      rw [execGo] at h
      simp only [Prod.mk.injEq, Except.ok.injEq] at h
      obtain ⟨h1, h2⟩ := h
      subst h1; subst h2
      exact ⟨frame₂, by rw [execGo], hR⟩
  | cons f rest ih =>
    intro tr frame₁ frame₂ hk hR
    have hkf := hk f (List.mem_cons_self f rest)
    have hk' : ∀ g ∈ rest, ∀ node, lookupFunc p g = some node → k ∉ node.argnames :=
      fun g hg => hk g (List.mem_cons_of_mem f hg)
    cases hfn : lookupFunc p f with
    | none =>
      constructor
      · intro tr' e h
        rw [execGo_cons_nofunc p f rest frame₁ tr hfn] at h
        rw [execGo_cons_nofunc p f rest frame₂ tr hfn]
        exact h
      · intro tr' fr₁ h
        rw [execGo_cons_nofunc p f rest frame₁ tr hfn] at h
        simp at h
    | some node =>
      have hnk : k ∉ node.argnames := hkf node hfn
      have hkargs : ∀ a ∈ node.argnames, a ≠ k := fun a ha heq => hnk (heq ▸ ha)
      have hg : gatherArgs frame₁ node.argnames = gatherArgs frame₂ node.argnames :=
        gatherArgs_congr k frame₁ frame₂ hR node.argnames hkargs
      cases hga : gatherArgs frame₁ node.argnames with
      | none =>
        have hga₂ : gatherArgs frame₂ node.argnames = none := by rw [← hg, hga]
        constructor
        · intro tr' e h
          rw [execGo_cons_noargs p f rest frame₁ tr node hfn hga] at h
          rw [execGo_cons_noargs p f rest frame₂ tr node hfn hga₂]
          have hfilter : List.filter (fun a => (lookupName a frame₂).isNone) node.argnames =
              List.filter (fun a => (lookupName a frame₁).isNone) node.argnames := by
            apply List.filter_congr
            intro a ha
            rw [hR a (hkargs a ha)]
          rw [hfilter]
          exact h
        · intro tr' fr₁ h
          rw [execGo_cons_noargs p f rest frame₁ tr node hfn hga] at h
          simp at h
      | some args =>
        have hga₂ : gatherArgs frame₂ node.argnames = some args := by rw [← hg, hga]
        have hR' : ∀ n, n ≠ k →
            lookupName n ((f, node.func args) :: frame₁) =
            lookupName n ((f, node.func args) :: frame₂) := by
          intro n hn
          rw [lookupName_cons, lookupName_cons]
          by_cases hfe : f = n
          · rw [if_pos hfe, if_pos hfe]
          · rw [if_neg hfe, if_neg hfe]
            exact hR n hn
        obtain ⟨iherr, ihok⟩ := ih (tr ++ [f]) _ _ hk' hR'
        constructor
        · intro tr' e h
          rw [execGo_cons_step p f rest frame₁ tr node args hfn hga] at h
          rw [execGo_cons_step p f rest frame₂ tr node args hfn hga₂]
          exact iherr tr' e h
        · intro tr' fr₁ h
          rw [execGo_cons_step p f rest frame₁ tr node args hfn hga] at h
          rw [execGo_cons_step p f rest frame₂ tr node args hfn hga₂]
          exact ihok tr' fr₁ h

/-- Claim C1: laziness — a registered function whose name is outside the
required closure of the current output selection (the selection contains
neither its name nor any name transitively depending on it) is never invoked
by an evaluation call, even when all of its argnames are present in the
supplied inputs. -/
theorem claim_C1_laziness {V : Type} (p : DataPipeline V) (inputs : List (String × V))
    (n : String) (hreg : n ∈ derivedNames p) (hnotout : n ∉ p.output_names)
    (hnodep : ∀ m, Relation.TransGen (DependsOn p) m n → m ∉ p.output_names) :
    n ∉ p.callOrder inputs := by
  intro hmem
  unfold DataPipeline.callOrder at hmem
  have hscope : n ∈ evalScope p := evaluateWithTrace_fst_subset p inputs n hmem
  have hclosure : n ∈ requiredClosure p p.output_names :=
    ((mem_evalScope_iff p n).mp hscope).2
  obtain ⟨m, hmout, hrtg⟩ := requiredClosure_sound p p.output_names hclosure
  rcases Relation.reflTransGen_iff_eq_or_transGen.mp hrtg with heq | htg
  · exact hnotout (by rw [heq]; exact hmout)
  · exact hnodep m htg hmout

/-- Witness for C1: in a pipeline registering foobar(foo, bar) and
truebar(foo) with only truebar selected, foobar is never invoked even though
foo and bar are both supplied. -/
theorem claim_C1_laziness_witness :
    "foobar" ∉ wpipeLazy.callOrder [("foo", 1), ("bar", 2)] :=
  claim_C1_laziness wpipeLazy [("foo", 1), ("bar", 2)] "foobar"
    (by decide) (by decide)
    (fun m hm =>
      absurd hm (no_transGen_of_no_direct wpipeLazy "foobar"
        (no_dependents_of_not_mem_depsUnion wpipeLazy "foobar" (by decide)) m))

/-- Claim C2: diamond memoization — within one successful evaluate call,
every registered function in the required closure is invoked exactly once,
even under diamond-shaped dependencies; nothing is cached across calls (the
model is stateless, so a repeated call re-executes the same invocation
order). -/
theorem claim_C2_diamond_memoization {V : Type} (p : DataPipeline V)
    (inputs : List (String × V)) (outs : List (String × V)) (n : String)
    (hok : p.evaluate inputs = Except.ok outs)
    (hreg : n ∈ derivedNames p)
    (hcl : n ∈ requiredClosure p p.output_names) :
    (p.callOrder inputs).count n = 1 := by
  have hE := evaluate_ok_pair p inputs outs hok
  obtain ⟨_, order, frame, hord, hexec, _⟩ := evaluateWithTrace_ok_inv p inputs _ outs hE
  have htr : p.callOrder inputs = order := by
    have := execGo_ok_trace p order inputs [] (p.callOrder inputs) frame hexec
    simpa using this
  rw [htr]
  have hperm := topoOrder_some_perm p (evalScope p) order hord
  have hnd : order.Nodup := hperm.nodup_iff.mpr (evalScope_nodup p)
  have hmem : n ∈ order := hperm.mem_iff.mpr ((mem_evalScope_iff p n).mpr ⟨hreg, hcl⟩)
  exact List.count_eq_one_of_mem hnd hmem

/-- Witness for C2: in the diamond d(x), a(d), b(d) with both a and b
selected, the shared producer d is invoked exactly once. -/
theorem claim_C2_diamond_memoization_witness :
    (wpipeDiamond.callOrder [("x", 100)]).count "d" = 1 :=
  claim_C2_diamond_memoization wpipeDiamond [("x", 100)] [("a", 111), ("b", 112)] "d"
    (by rfl) (by decide) (by decide)

/-- Claim C3: determinism — two evaluate calls on the same pipeline with
identical inputs, identical registry contents and identical output selection
return identical output mappings and invoke the callables in the identical
order (the embedding is a pure function of the pipeline and the inputs). -/
theorem claim_C3_determinism {V : Type} (p q : DataPipeline V)
    (i j : List (String × V)) (hpq : p = q) (hij : i = j) :
    p.evaluate i = q.evaluate j ∧ p.callOrder i = q.callOrder j := by
  subst hpq
  subst hij
  exact ⟨rfl, rfl⟩

/-- Witness for C3: repeating the diamond evaluation gives identical results
and identical call order. -/
theorem claim_C3_determinism_witness :
    wpipeDiamond.evaluate [("x", 100)] = wpipeDiamond.evaluate [("x", 100)] ∧
    wpipeDiamond.callOrder [("x", 100)] = wpipeDiamond.callOrder [("x", 100)] :=
  claim_C3_determinism wpipeDiamond wpipeDiamond [("x", 100)] [("x", 100)] rfl rfl

/-- Claim C4: cycle detection — building the dependency graph fails with a
CyclicDependencyError exactly when some derived name transitively depends on
itself; on failure no graph is produced (the build result is the error alone). -/
theorem claim_C4_cycle_detection {V : Type} (p : DataPipeline V) :
    (∃ ns, p.build = Except.error (PipelineError.cyclicDependencyError ns)) ↔
    (∃ n, n ∈ derivedNames p ∧ Relation.TransGen (DependsOn p) n n) := by
  constructor
  · rintro ⟨ns, hb⟩
    cases hord : topoOrder p (derivedNames p).dedup with
    | some order =>
      have : p.build = Except.ok order := by
        unfold DataPipeline.build
        rw [hord]
      rw [this] at hb
      exact absurd hb (by simp)
    | none =>
      obtain ⟨n, hn, hcyc⟩ := topoOrder_none_cycle p _ hord
      exact ⟨n, List.mem_dedup.mp hn, hcyc⟩
  · rintro ⟨n, hn, hcyc⟩
    cases hord : topoOrder p (derivedNames p).dedup with
    | none =>
      refine ⟨(derivedNames p).dedup, ?_⟩
      unfold DataPipeline.build
      rw [hord]
    | some order =>
      exfalso
      have hperm := topoOrder_some_perm p _ order hord
      have hok := topoOrder_some_topoOk p _ order hord
      have hnd : order.Nodup := hperm.nodup_iff.mpr (List.nodup_dedup _)
      have hlt := transGen_posIn_lt p ((derivedNames p).dedup) order hok hnd
        (fun x hx => List.mem_dedup.mpr hx) hperm hcyc hn
      omega

/-- Claim C5: missing input — when some name in the required closure has no
producing function and is absent from the supplied inputs, evaluation fails
with a MissingInputError naming the missing keys (among them that name), no
function is invoked and no partial output mapping is returned. -/
theorem claim_C5_missing_input {V : Type} (p : DataPipeline V)
    (inputs : List (String × V)) (n : String)
    (hcl : n ∈ requiredClosure p p.output_names)
    (hnof : lookupFunc p n = none) (hnin : lookupName n inputs = none) :
    p.evaluateWithTrace inputs =
      ([], Except.error (PipelineError.missingInputError (missingInputs p inputs))) ∧
    n ∈ missingInputs p inputs := by
  have hmem : n ∈ missingInputs p inputs := by
    unfold missingInputs
    rw [List.mem_filter]
    refine ⟨hcl, ?_⟩
    rw [hnof, hnin]
    rfl
  have hne : missingInputs p inputs ≠ [] := List.ne_nil_of_mem hmem
  have hfalse : (missingInputs p inputs).isEmpty = false := by
    cases hb : (missingInputs p inputs).isEmpty
    · rfl
    · exact absurd (List.isEmpty_iff.mp hb) hne
  exact ⟨evaluateWithTrace_eq_missing p inputs hfalse, hmem⟩

/-- Witness for C5: evaluating foobar(foo, bar) with only foo supplied fails
with a MissingInputError naming bar, with an empty invocation trace. -/
theorem claim_C5_missing_input_witness :
    wpipeFoobar.evaluateWithTrace [("foo", 1)] =
      ([], Except.error (PipelineError.missingInputError
        (missingInputs wpipeFoobar [("foo", 1)]))) ∧
    "bar" ∈ missingInputs wpipeFoobar [("foo", 1)] :=
  claim_C5_missing_input wpipeFoobar [("foo", 1)] "bar" (by decide) (by rfl) (by rfl)

/-- Claim C6: passthrough — when a requested output name has no producing
function and is present in the supplied inputs, a successful evaluation
returns the input value unchanged under that key and invokes no function for
that name. -/
theorem claim_C6_passthrough {V : Type} (p : DataPipeline V)
    (inputs : List (String × V)) (n : String) (v : V) (outs : List (String × V))
    (hok : p.evaluate inputs = Except.ok outs)
    (hout : n ∈ p.output_names) (hnof : lookupFunc p n = none)
    (hin : lookupName n inputs = some v) :
    lookupName n outs = some v ∧ n ∉ p.callOrder inputs := by
  have hE := evaluate_ok_pair p inputs outs hok
  obtain ⟨_, order, frame, hord, hexec, hc⟩ := evaluateWithTrace_ok_inv p inputs _ outs hE
  have hnorder : n ∉ order := by
    intro hmem
    have hd : n ∈ derivedNames p :=
      ((mem_evalScope_iff p n).mp
        ((topoOrder_some_perm p _ order hord).mem_iff.mp hmem)).1
    unfold derivedNames at hd
    have hsome := lookupName_isSome_of_mem_keys hd
    unfold lookupFunc at hnof
    rw [hnof] at hsome
    simp at hsome
  have hframe : lookupName n frame = lookupName n inputs :=
    execGo_ok_lookup p order inputs [] (p.callOrder inputs) frame hexec n hnorder
  constructor
  · rw [collectOutputs_lookup frame p.output_names outs hc n hout, hframe, hin]
  · have htr : p.callOrder inputs = order := by
      have := execGo_ok_trace p order inputs [] (p.callOrder inputs) frame hexec
      simpa using this
    rw [htr]
    exact hnorder

/-- Witness for C6: with foobar(foo, bar) registered and the selection
retargeted to the raw input bar, evaluation passes the input value 2 through
unchanged and invokes nothing for bar. -/
theorem claim_C6_passthrough_witness :
    lookupName "bar" [(("bar" : String), (2 : Nat))] = some 2 ∧
    "bar" ∉ (wpipeFoobarFoo.set_output_names (NameSpec.single "bar")).callOrder
      [("foo", 1), ("bar", 2)] :=
  claim_C6_passthrough (wpipeFoobarFoo.set_output_names (NameSpec.single "bar"))
    [("foo", 1), ("bar", 2)] "bar" 2 [("bar", 2)]
    (by rfl) (by decide) (by rfl) (by rfl)

/-- Claim C7: output restriction — a successful evaluation returns a mapping
whose keys are exactly the current output selection, in order; supplied
inputs not listed in the selection do not appear in the result. -/
theorem claim_C7_output_restriction {V : Type} (p : DataPipeline V)
    (inputs : List (String × V)) (outs : List (String × V))
    (hok : p.evaluate inputs = Except.ok outs) :
    outs.map Prod.fst = p.output_names ∧
    ∀ k, k ∉ p.output_names → lookupName k outs = none := by
  have hkeys := evaluate_ok_keys p inputs outs hok
  refine ⟨hkeys, ?_⟩
  intro k hk
  apply lookupName_eq_none_of_not_mem_keys
  rw [hkeys]
  exact hk

/-- Witness for C7: with outputs foobar and foo and inputs foo and bar, the
result holds exactly the keys foobar and foo; bar does not appear. -/
theorem claim_C7_output_restriction_witness :
    ([(("foobar" : String), (3 : Nat)), ("foo", 1)]).map Prod.fst =
      wpipeFoobarFoo.output_names ∧
    lookupName "bar" [(("foobar" : String), (3 : Nat)), ("foo", 1)] = none :=
  ⟨(claim_C7_output_restriction wpipeFoobarFoo [("foo", 1), ("bar", 2)]
      [("foobar", 3), ("foo", 1)] (by rfl)).1,
   (claim_C7_output_restriction wpipeFoobarFoo [("foo", 1), ("bar", 2)]
      [("foobar", 3), ("foo", 1)] (by rfl)).2 "bar" (by decide)⟩

/-- Claim C8: retargeting — set_output_names replaces only the active output
selection: the registry is untouched (its FunctionNodes and argnames are
unchanged), no computation is triggered, and the next evaluation behaves
exactly like a pipeline with the same registry and the new selection. -/
theorem claim_C8_retargeting {V : Type} (p : DataPipeline V) (ns : NameSpec) :
    (p.set_output_names ns).funcs = p.funcs ∧
    (p.set_output_names ns).output_names = ns.toList ∧
    ∀ inputs : List (String × V),
      (p.set_output_names ns).evaluateWithTrace inputs =
        (DataPipeline.mk p.funcs ns.toList).evaluateWithTrace inputs :=
  ⟨rfl, rfl, fun _ => rfl⟩

/-- Claim C9: set_output_names accepts a single string name — after
set_output_names of the bare string s, a successful evaluation returns a
mapping whose key list is exactly the one-element list containing s. -/
theorem claim_C9_single_string_output {V : Type} (p : DataPipeline V) (s : String)
    (inputs : List (String × V)) (outs : List (String × V))
    (hok : (p.set_output_names (NameSpec.single s)).evaluate inputs = Except.ok outs) :
    outs.map Prod.fst = [s] :=
  evaluate_ok_keys (p.set_output_names (NameSpec.single s)) inputs outs hok

/-- Witness for C9: after set_output_names of the bare string bar the result
keys are exactly the single name bar (not the characters of the string). -/
theorem claim_C9_single_string_output_witness :
    ([(("bar" : String), (2 : Nat))]).map Prod.fst = ["bar"] :=
  claim_C9_single_string_output wpipeFoobarFoo "bar" [("foo", 1), ("bar", 2)]
    [("bar", 2)] (by rfl)

/-- Claim C10: surplus inputs are tolerated — an extra input binding whose key
is outside the required closure changes nothing: the evaluation result and
the invocation trace are identical with and without it, so it causes no
error, triggers no invocation and never appears in the returned mapping. -/
theorem claim_C10_surplus_inputs {V : Type} (p : DataPipeline V) (k : String) (v : V)
    (inputs : List (String × V)) (hk : k ∉ requiredClosure p p.output_names) :
    p.evaluateWithTrace ((k, v) :: inputs) = p.evaluateWithTrace inputs := by
  have hRin : ∀ n, n ≠ k → lookupName n ((k, v) :: inputs) = lookupName n inputs := by
    intro n hn
    rw [lookupName_cons, if_neg (fun h => hn h.symm)]
  have hmiss : missingInputs p ((k, v) :: inputs) = missingInputs p inputs := by
    unfold missingInputs
    apply List.filter_congr
    intro n hn
    have hnk : n ≠ k := fun h => hk (h ▸ hn)
    rw [hRin n hnk]
  by_cases hm : (missingInputs p inputs).isEmpty = true
  · have hm' : (missingInputs p ((k, v) :: inputs)).isEmpty = true := by
      rw [hmiss]
      exact hm
    cases hord : topoOrder p (evalScope p) with
    | none =>
      rw [evaluateWithTrace_eq_cycle p _ hm' hord,
        evaluateWithTrace_eq_cycle p inputs hm hord]
    | some order =>
      rw [evaluateWithTrace_eq_run p _ order hm' hord,
        evaluateWithTrace_eq_run p inputs order hm hord]
      have hkord : ∀ f ∈ order, ∀ node, lookupFunc p f = some node →
          k ∉ node.argnames := by
        intro f hf node hfn hkmem
        have hfc : f ∈ requiredClosure p p.output_names :=
          ((mem_evalScope_iff p f).mp
            ((topoOrder_some_perm p _ order hord).mem_iff.mp hf)).2
        have hdep : k ∈ depsOf p f := by
          unfold depsOf
          rw [hfn]
          exact hkmem
        exact hk (requiredClosure_closed p p.output_names f hfc hdep)
      obtain ⟨herr, hokc⟩ := execGo_congr p k order [] ((k, v) :: inputs) inputs hkord hRin
      rcases hE1 : execGo p order ((k, v) :: inputs) [] with ⟨tr1, res1⟩
      cases res1 with
      | error e =>
        rw [herr tr1 e hE1]
      | ok fr₁ =>
        obtain ⟨fr₂, hE2, hRfr⟩ := hokc tr1 fr₁ hE1
        rw [hE2, finishEval_ok, finishEval_ok]
        have houtk : ∀ n ∈ p.output_names, n ≠ k :=
          fun n hn h => hk (h ▸ mem_requiredClosure_of_mem p p.output_names hn)
        have hcoll : collectOutputs fr₁ p.output_names = collectOutputs fr₂ p.output_names :=
          collectOutputs_congr k fr₁ fr₂ hRfr p.output_names houtk
        have hfilter : List.filter (fun n => (lookupName n fr₁).isNone) p.output_names =
            List.filter (fun n => (lookupName n fr₂).isNone) p.output_names := by
          apply List.filter_congr
          intro n hn
          rw [hRfr n (houtk n hn)]
        rw [hcoll, hfilter]
  · have hm₁ : (missingInputs p inputs).isEmpty = false := by
      cases hb : (missingInputs p inputs).isEmpty
      · rfl
      · exact absurd hb hm
    have hm₂ : (missingInputs p ((k, v) :: inputs)).isEmpty = false := by
      rw [hmiss]
      exact hm₁
    rw [evaluateWithTrace_eq_missing p _ hm₂, evaluateWithTrace_eq_missing p inputs hm₁,
      hmiss]

/-- Witness for C10: adding the surplus input baz to the foobar pipeline
leaves the evaluation result and trace unchanged. -/
theorem claim_C10_surplus_inputs_witness :
    wpipeFoobar.evaluateWithTrace [("baz", 7), ("foo", 1), ("bar", 2)] =
      wpipeFoobar.evaluateWithTrace [("foo", 1), ("bar", 2)] :=
  claim_C10_surplus_inputs wpipeFoobar "baz" 7 [("foo", 1), ("bar", 2)] (by decide)
